import Mathlib

set_option linter.unusedVariables false

/-
Verification development for prototypes/citizen-kane/upstream.go, a
manifest-to-shell-script generator: it reads a TOML manifest of upstream
sources and prints a sequence of git commands (fetch, branch duplication,
history-rewriting filters, merges) that assemble a meta-repository.

The embedding below mirrors the Go source: path.Clean / path.Join are
modelled at the character-list level, the random build id is parametrised
by the entropy bytes the program would read, and the printed output is
modelled as a list of tagged lines (diagnostics, commands, blanks), one
item per printf of the source.
-/

/-- Split a character list on the slash separator, keeping empty segments.
This is how `path.Clean` in Go's standard library scans the elements
between slashes (empty and dot elements are discarded by the later pass). -/
def splitSlash : List Char → List (List Char)
  | [] => [[]]
  | c :: rest =>
    if c = '/' then [] :: splitSlash rest
    else (c :: (splitSlash rest).headI) :: (splitSlash rest).tail

/-- Join segments with a slash separator (inverse of `splitSlash` on
slash-free segments). -/
def joinSlash : List (List Char) → List Char
  | [] => []
  | [s] => s
  | s :: ss => s ++ '/' :: joinSlash ss

/-- The element loop of Go's standard `path.Clean`: empty and `.` elements
are dropped; a `..` element pops the last kept element when one is
poppable, is dropped at the root of a rooted path, and is kept when a
relative path cannot backtrack; every other element is appended. -/
def processSegs (rooted : Bool) (acc : List (List Char)) : List (List Char) → List (List Char)
  | [] => acc
  | seg :: rest =>
    if seg = [] ∨ seg = ['.'] then processSegs rooted acc rest
    else if seg = ['.', '.'] then
      if acc ≠ [] ∧ acc.getLast? ≠ some ['.', '.'] then
        processSegs rooted acc.dropLast rest
      else if rooted then
        processSegs rooted acc rest
      else
        processSegs rooted (acc ++ [['.', '.']]) rest
    else processSegs rooted (acc ++ [seg]) rest

/-- Go's standard `path.Clean` on a character list: the empty path becomes
`.`, a rooted path keeps its leading slash and can never become empty, and
a relative path whose elements all cancel becomes `.`. -/
def cleanL (cs : List Char) : List Char :=
  if cs = [] then ['.']
  else if cs.head? = some '/' then
    '/' :: joinSlash (processSegs true [] (splitSlash cs))
  else
    let out := joinSlash (processSegs false [] (splitSlash cs))
    if out = [] then ['.'] else out

/-- Go's standard `path.Clean`, as used by upstream.go on mapping paths
and (via `path.Join`) on branch names. -/
def clean (s : String) : String :=
  String.mk (cleanL s.data)

/-- A single clean path element: nonempty, slash-free, and not one of the
special elements `.` and `..`. -/
def validSeg (s : List Char) : Prop :=
  s ≠ [] ∧ s ≠ ['.'] ∧ s ≠ ['.', '.'] ∧ '/' ∉ s

/-- `validSeg` at the string level, for source names and build ids. -/
def validComp (s : String) : Prop :=
  validSeg s.data

instance (s : List Char) : Decidable (validSeg s) := by
  unfold validSeg; infer_instance

instance (s : String) : Decidable (validComp s) := by
  unfold validComp; infer_instance

/-- Decimal digit table, as indexed by Go's integer formatting. -/
def digitChar (n : Nat) : Char :=
  "0123456789".data.getD n '0'

/-- Decimal formatting of a natural number, most significant digit first:
the behaviour of Go's `fmt.Sprintf` with the `%d` verb on a non-negative
integer (upstream.go formats mapping indices this way). -/
def decChars (n : Nat) : List Char :=
  if h : n < 10 then [digitChar n]
  else decChars (n / 10) ++ [digitChar (n % 10)]
decreasing_by exact Nat.div_lt_self (by omega) (by omega)

/-- String form of `decChars`. -/
def decStr (n : Nat) : String :=
  String.mk (decChars n)

/-- Numeric value of a decimal digit character. -/
def digitVal (c : Char) : Nat :=
  c.toNat - 48

/-- Read back a decimal digit list (left inverse of `decChars`). -/
def decVal (ds : List Char) : Nat :=
  ds.foldl (fun a c => a * 10 + digitVal c) 0

/-- The sixteen lower-case hexadecimal digit characters: Go's `hextable`
constant of `encoding/hex`. -/
def hexChars : List Char :=
  "0123456789abcdef".data

/-- A nibble's digit, indexed into `hextable` as Go's `encoding/hex`
does. -/
def hexDigitChar (n : Nat) : Char :=
  hexChars.getD n '0'

/-- Go's `hex.EncodeToString`: each byte becomes its high nibble's digit
followed by its low nibble's digit. -/
def hexEncode (bytes : List (Fin 256)) : List Char :=
  bytes.flatMap fun b => [hexDigitChar (b.val / 16), hexDigitChar (b.val % 16)]

/-- `RandomString` from upstream.go: 32 random bytes, hex encoded (the
randomness is made explicit as the byte list the program would read). -/
def randomString (bytes : List (Fin 256)) : String :=
  String.mk (hexEncode bytes)

/-- Go string slicing `s[:n]` on an ASCII string: the first `n`
characters. -/
def strTake (n : Nat) (s : String) : String :=
  String.mk (s.data.take n)

/-- The build id computed at the top of main: `RandomString()[:4]`. -/
def mkBuildId (bytes : List (Fin 256)) : String :=
  strTake 4 (randomString bytes)

/-- One upstream source of the manifest (struct `Source` of upstream.go);
Go's `[2]string` mapping entries become pairs. -/
structure Source where
  Name : String
  Owner : String
  Url : String
  Branch : String
  Mapping : List (String × String)
deriving DecidableEq, Repr

/-- The decoded manifest (struct `Manifest` of upstream.go). -/
structure Manifest where
  Sources : List Source
deriving DecidableEq, Repr

/-- Go's standard `path.Join`: drop empty elements, join the rest with
slashes, and clean the result; all empty means the empty string. -/
def pathJoin (elems : List String) : String :=
  if elems.filter (fun e => e ≠ "") = [] then ""
  else clean (String.mk (joinSlash ((elems.filter (fun e => e ≠ "")).map String.data)))

/-- `dstBranch` of upstream.go. -/
def dstBranch (buildid : String) : String :=
  pathJoin ["citizenkane", buildid, "dst"]

/-- `Source.baseBranch` of upstream.go. -/
def baseBranch (buildid name : String) : String :=
  pathJoin ["citizenkane", buildid, "base", name]

/-- `Source.mapBranch` of upstream.go. -/
def mapBranch (buildid name : String) (mapid : Nat) : String :=
  pathJoin ["citizenkane", buildid, "map", name, decStr mapid]

/-- The kind of shell command a printed command line performs. -/
inductive CmdKind where
  | strict
  | fetch
  | dup
  | zoomIn
  | zoomOut
  | merge
deriving DecidableEq, Repr

/-- One printed item of the generated script: a diagnostic/progress line
(the `# ...` comments and the skip notice), a shell command (the full text
of one command printf, newlines included for the multi-line tree filter),
or a blank line from a double newline. -/
inductive Line where
  | diag (text : String)
  | cmd (kind : CmdKind) (text : String)
  | blank
deriving DecidableEq, Repr

/-- Output of `Source.fetch`: a comment, the fetch command, a blank. -/
def fetchLines (buildid : String) (src : Source) : List Line :=
  [Line.diag ("# [" ++ buildid ++ "] fetch(" ++ src.Name ++ ")"),
   Line.cmd CmdKind.fetch
     ("git fetch -f " ++ src.Url ++ " " ++ src.Branch ++ ":" ++ baseBranch buildid src.Name),
   Line.blank]

/-- Output of `dupBranch`: a comment, the branch duplication command, a
blank. -/
def dupBranchLines (s d : String) : List Line :=
  [Line.diag ("# dupBranch(" ++ s ++ ", " ++ d ++ ")"),
   Line.cmd CmdKind.dup
     ("\x7b git branch -D \x27" ++ d ++ "\x27 2>/dev/null || true; \x7d && git branch -f \x27"
       ++ d ++ "\x27 \x27" ++ s ++ "\x27"),
   Line.blank]

/-- Output of `zoomIn`: a comment, the subdirectory-filter command, a
blank. -/
def zoomInLines (branch dir : String) : List Line :=
  [Line.diag ("# zoomIn(" ++ branch ++ ", " ++ dir ++ ")"),
   Line.cmd CmdKind.zoomIn
     ("(cd $(git rev-parse --show-toplevel) && git filter-branch -f --subdirectory-filter \x27"
       ++ dir ++ "\x27 \x27" ++ branch ++ "\x27)"),
   Line.blank]

/-- Output of `zoomOut`: a comment, the multi-line tree-filter command
(using the fresh staging directory name `tmp`), a blank. -/
def zoomOutLines (branch dir tmp : String) : List Line :=
  [Line.diag ("# zoomOut(" ++ branch ++ ", " ++ dir ++ ")"),
   Line.cmd CmdKind.zoomOut
     ("(\n\tcd $(git rev-parse --show-toplevel) \x5c\n\t&& git filter-branch -f --tree-filter \"mkdir .\x27"
       ++ tmp ++ "\x27 && mv * .\x27" ++ tmp ++ "\x27/ && mkdir -p \x27" ++ dir
       ++ "\x27 && mv .\x27" ++ tmp ++ "\x27/* \x27" ++ dir ++ "\x27/ && rm -r .\x27" ++ tmp
       ++ "\x27\" \x27" ++ branch ++ "\x27\n)"),
   Line.blank]

/-- Output of `mergeLayer`: a comment, the two-sided merge command, a
blank. -/
def mergeLayerLines (bottom top : String) : List Line :=
  [Line.diag ("# mergeLayer(" ++ bottom ++ ", " ++ top ++ ")"),
   Line.cmd CmdKind.merge
     ("git checkout \x27" ++ top ++ "\x27 && git merge -X ours \x27" ++ bottom
       ++ "\x27 && git checkout \x27" ++ bottom ++ "\x27 && git merge \x27" ++ top ++ "\x27"),
   Line.blank]

/-- One iteration of the mapping loop of main: clean both paths, duplicate
the base branch to the map branch, zoom in unless the from-path is the
root, zoom out unless the to-path is empty (drawing one fresh random
staging name), then merge the layer. Returns the updated random-draw
counter with the printed lines. -/
def processMapping (buildid : String) (src : Source) (rnd : Nat → List (Fin 256))
    (mapid k : Nat) (mp : String × String) : Nat × List Line :=
  let f := clean mp.1
  let t := clean mp.2
  let mb := mapBranch buildid src.Name mapid
  let ls := dupBranchLines (baseBranch buildid src.Name) mb
      ++ (if f ≠ "/" then zoomInLines mb f else [])
  if t ≠ "" then
    (k + 1, ls ++ zoomOutLines mb t (strTake 8 (randomString (rnd k)))
      ++ mergeLayerLines (dstBranch buildid) mb)
  else
    (k, ls ++ mergeLayerLines (dstBranch buildid) mb)

/-- The inner mapping loop of main over one source's mapping list,
threading the mapping index and the random-draw counter. -/
def processMappings (buildid : String) (src : Source) (rnd : Nat → List (Fin 256)) :
    Nat → Nat → List (String × String) → Nat × List Line
  | _, k, [] => (k, [])
  | mapid, k, mp :: rest =>
    let r := processMapping buildid src rnd mapid k mp
    let r2 := processMappings buildid src rnd (mapid + 1) r.1 rest
    (r2.1, r.2 ++ r2.2)

/-- The outer mapping loop of main over all sources (note: unlike the
fetch loop, it does not skip sources with an empty name). -/
def processSources (buildid : String) (rnd : Nat → List (Fin 256)) :
    Nat → List Source → Nat × List Line
  | k, [] => (k, [])
  | k, src :: rest =>
    let r := processMappings buildid src rnd 0 k src.Mapping
    let r2 := processSources buildid rnd r.1 rest
    (r2.1, r.2 ++ r2.2)

/-- The defaults pass of main. In Go, `for _, src := range m.Sources`
iterates over value copies, so the assignments of the default branch
`master` and the default identity mapping land on a copy that is then
discarded: the manifest comes out unchanged. The updated copy is computed
here and dropped, exactly as in the source. -/
def applyDefaults (m : Manifest) : Manifest :=
  { Sources := m.Sources.map fun src =>
      let updated : Source :=
        { src with
          Branch := if src.Branch = "" then "master" else src.Branch
          Mapping := if src.Mapping = [] then [("/", "/")] else src.Mapping }
      src }

/-- The generation phase of main after a successful decode: the loaded
report, the fetch loop (with the skip notice for unnamed sources), the
duplication of master to the destination branch, and the mapping loops. -/
def generate (buildid : String) (rnd : Nat → List (Fin 256)) (m : Manifest) : List Line :=
  let m' := applyDefaults m
  [Line.diag ("# Loaded " ++ decStr m'.Sources.length ++ " sources from ./UPSTREAM"), Line.blank]
    ++ (m'.Sources.flatMap fun src =>
        if src.Name = "" then [Line.diag "skipping unnamed source"]
        else fetchLines buildid src)
    ++ dupBranchLines "master" (dstBranch buildid)
    ++ (processSources buildid rnd 0 m'.Sources).2

/-- The whole of main: the header is printed, then the manifest file is
opened and read (modelled by `file`, the contents when both succeed) and
decoded (modelled by `decode`, standing for the external TOML decoder);
either failure reaches `log.Fatal`, which exits with code 1. On success
the script is generated and the process exits 0. Returns the exit code
and the printed lines. -/
def runMain (bidBytes : List (Fin 256)) (rnd : Nat → List (Fin 256))
    (file : Option String) (decode : String → Option Manifest) : Nat × List Line :=
  let bid := strTake 4 (randomString bidBytes)
  let header := [Line.diag ("# Starting build " ++ bid), Line.cmd CmdKind.strict "set -e"]
  match file with
  | none => (1, header)
  | some data =>
    match decode data with
    | none => (1, header)
    | some m => (0, header ++ generate bid rnd m)

/-- The command kinds of an output, in order (diagnostics and blanks
dropped). -/
def cmdKinds (ls : List Line) : List CmdKind :=
  ls.filterMap fun l =>
    match l with
    | Line.cmd k _ => some k
    | _ => none

/-- How many command lines of kind `k` an output contains. -/
def countKind (k : CmdKind) (ls : List Line) : Nat :=
  (cmdKinds ls).count k

/-- Total number of mapping-loop iterations a manifest produces. -/
def totalMappings (m : Manifest) : Nat :=
  (m.Sources.map fun s => s.Mapping.length).sum

theorem splitSlash_ne_nil (cs : List Char) : splitSlash cs ≠ [] := by
  cases cs with
  | nil => simp [splitSlash]
  | cons c rest =>
    simp only [splitSlash]
    split <;> simp

theorem splitSlash_slash (t : List Char) : splitSlash ('/' :: t) = [] :: splitSlash t := by
  simp [splitSlash]

theorem splitSlash_cons_ne (c : Char) (t : List Char) (h : c ≠ '/') :
    splitSlash (c :: t) = (c :: (splitSlash t).headI) :: (splitSlash t).tail := by
  simp [splitSlash, h]

theorem splitSlash_no_slash (cs : List Char) : ∀ s ∈ splitSlash cs, '/' ∉ s := by
  induction cs with
  | nil =>
    intro s hs
    simp [splitSlash] at hs
    simp [hs]
  | cons c rest ih =>
    intro s hs
    by_cases hc : c = '/'
    · subst hc
      rw [splitSlash_slash] at hs
      rcases List.mem_cons.1 hs with hs | hs
      · simp [hs]
      · exact ih s hs
    · rw [splitSlash_cons_ne c rest hc] at hs
      cases hsp : splitSlash rest with
      | nil => exact absurd hsp (splitSlash_ne_nil rest)
      | cons s0 ss =>
        rw [hsp] at hs
        rcases List.mem_cons.1 hs with hs | hs
        · subst hs
          intro hmem
          rcases List.mem_cons.1 hmem with h1 | h1
          · exact hc h1.symm
          · exact ih s0 (by rw [hsp]; exact List.mem_cons_self s0 ss) h1
        · exact ih s (by rw [hsp]; exact List.mem_cons_of_mem s0 hs)

theorem joinSlash_cons_cons (s s' : List Char) (ss : List (List Char)) :
    joinSlash (s :: s' :: ss) = s ++ '/' :: joinSlash (s' :: ss) := rfl

theorem joinSlash_ne_nil (s : List Char) (ss : List (List Char)) (h : s ≠ []) :
    joinSlash (s :: ss) ≠ [] := by
  cases ss with
  | nil => simpa [joinSlash] using h
  | cons s' ss' => simp [joinSlash_cons_cons]

theorem joinSlash_head? (s : List Char) (ss : List (List Char)) (h : s ≠ []) :
    (joinSlash (s :: ss)).head? = s.head? := by
  cases s with
  | nil => exact absurd rfl h
  | cons c s' =>
    cases ss with
    | nil => rfl
    | cons s0 ss' => rw [joinSlash_cons_cons]; rfl

theorem splitSlash_of_no_slash (s : List Char) (h : '/' ∉ s) : splitSlash s = [s] := by
  induction s with
  | nil => rfl
  | cons c rest ih =>
    have hc : c ≠ '/' := fun e => h (by simp [e])
    have hr : '/' ∉ rest := fun m => h (List.mem_cons_of_mem _ m)
    rw [splitSlash_cons_ne c rest hc, ih hr]
    rfl

theorem splitSlash_append (s t : List Char) (h : '/' ∉ s) :
    splitSlash (s ++ '/' :: t) = s :: splitSlash t := by
  induction s with
  | nil => simpa using splitSlash_slash t
  | cons c s' ih =>
    have hc : c ≠ '/' := fun e => h (by simp [e])
    have hs' : '/' ∉ s' := fun m => h (List.mem_cons_of_mem _ m)
    rw [List.cons_append, splitSlash_cons_ne _ _ hc, ih hs']
    rfl

theorem splitSlash_joinSlash (segs : List (List Char)) (hne : segs ≠ [])
    (h : ∀ s ∈ segs, '/' ∉ s) : splitSlash (joinSlash segs) = segs := by
  induction segs with
  | nil => exact absurd rfl hne
  | cons s ss ih =>
    cases ss with
    | nil => exact splitSlash_of_no_slash s (h s (List.mem_cons_self s []))
    | cons s' ss' =>
      rw [joinSlash_cons_cons, splitSlash_append s _ (h s (List.mem_cons_self _ _)),
        ih (by simp) (fun x hx => h x (List.mem_cons_of_mem _ hx))]

theorem processSegs_nil (rooted : Bool) (acc : List (List Char)) :
    processSegs rooted acc [] = acc := rfl

theorem processSegs_valid (rooted : Bool) (segs : List (List Char)) :
    ∀ acc, (∀ s ∈ segs, validSeg s) → processSegs rooted acc segs = acc ++ segs := by
  induction segs with
  | nil => intro acc _; simp [processSegs]
  | cons seg rest ih =>
    intro acc h
    obtain ⟨h1, h2, h3, _⟩ := h seg (List.mem_cons_self _ _)
    simp only [processSegs]
    rw [if_neg (by simp [h1, h2]), if_neg h3,
      ih (acc ++ [seg]) (fun x hx => h x (List.mem_cons_of_mem _ hx))]
    simp

theorem getLast?_replicate_dd (i : Nat) (h : i ≠ 0) :
    (List.replicate i (['.', '.'] : List Char)).getLast? = some ['.', '.'] := by
  obtain ⟨j, rfl⟩ := Nat.exists_eq_succ_of_ne_zero h
  rw [List.replicate_succ', List.getLast?_concat]

theorem processSegs_dd_prefix (rest : List (List Char)) (hrest : ∀ s ∈ rest, validSeg s) :
    ∀ k i, processSegs false (List.replicate i (['.', '.'] : List Char))
        (List.replicate k (['.', '.'] : List Char) ++ rest)
      = List.replicate (i + k) (['.', '.'] : List Char) ++ rest := by
  intro k
  induction k with
  | zero =>
    intro i
    simpa using processSegs_valid false rest _ hrest
  | succ k ih =>
    intro i
    have hcond : ¬(List.replicate i (['.', '.'] : List Char) ≠ [] ∧
        (List.replicate i (['.', '.'] : List Char)).getLast? ≠ some ['.', '.']) := by
      rintro ⟨hne, hlast⟩
      rcases Nat.eq_zero_or_pos i with hi | hi
      · subst hi; exact hne rfl
      · exact hlast (getLast?_replicate_dd i (by omega))
    rw [List.replicate_succ, List.cons_append]
    simp only [processSegs, if_true]
    rw [if_neg hcond]
    simp only [Bool.false_eq_true, if_false]
    rw [← List.replicate_succ']
    rw [ih (i + 1)]
    rw [show i + 1 + k = i + (k + 1) from by omega]
    rw [if_neg (by decide)]

theorem processSegs_rooted_valid :
    ∀ (segs acc : List (List Char)), (∀ s ∈ segs, '/' ∉ s) → (∀ s ∈ acc, validSeg s) →
      ∀ s ∈ processSegs true acc segs, validSeg s := by
  intro segs
  induction segs with
  | nil =>
    intro acc _ hacc s hs
    rw [processSegs_nil] at hs
    exact hacc s hs
  | cons seg rest ih =>
    intro acc hsl hacc s hs
    have hsl' : ∀ x ∈ rest, '/' ∉ x := fun x hx => hsl x (List.mem_cons_of_mem _ hx)
    simp only [processSegs] at hs
    by_cases h1 : seg = [] ∨ seg = ['.']
    · rw [if_pos h1] at hs
      exact ih acc hsl' hacc s hs
    · rw [if_neg h1] at hs
      by_cases h2 : seg = ['.', '.']
      · rw [if_pos h2] at hs
        by_cases h3 : acc ≠ [] ∧ acc.getLast? ≠ some ['.', '.']
        · rw [if_pos h3] at hs
          exact ih acc.dropLast hsl'
            (fun x hx => hacc x (List.mem_of_mem_dropLast hx)) s hs
        · rw [if_neg h3] at hs
          simp only [if_true] at hs
          exact ih acc hsl' hacc s hs
      · rw [if_neg h2] at hs
        refine ih (acc ++ [seg]) hsl' ?_ s hs
        intro x hx
        rcases List.mem_append.1 hx with hx | hx
        · exact hacc x hx
        · have hx' : x = seg := by simpa using hx
          subst hx'
          push_neg at h1
          exact ⟨h1.1, h1.2, h2, hsl x (List.mem_cons_self _ _)⟩

theorem processSegs_unrooted_shape :
    ∀ (segs acc : List (List Char)), (∀ s ∈ segs, '/' ∉ s) →
      (∃ i rest, acc = List.replicate i (['.', '.'] : List Char) ++ rest
        ∧ ∀ s ∈ rest, validSeg s) →
      ∃ i rest, processSegs false acc segs = List.replicate i (['.', '.'] : List Char) ++ rest
        ∧ ∀ s ∈ rest, validSeg s := by
  intro segs
  induction segs with
  | nil =>
    intro acc _ hacc
    rw [processSegs_nil]
    exact hacc
  | cons seg rest ih =>
    intro acc hsl hacc
    obtain ⟨i, tl, heq, htl⟩ := hacc
    have hsl' : ∀ x ∈ rest, '/' ∉ x := fun x hx => hsl x (List.mem_cons_of_mem _ hx)
    simp only [processSegs]
    by_cases h1 : seg = [] ∨ seg = ['.']
    · rw [if_pos h1]
      exact ih acc hsl' ⟨i, tl, heq, htl⟩
    · rw [if_neg h1]
      by_cases h2 : seg = ['.', '.']
      · rw [if_pos h2]
        by_cases h3 : acc ≠ [] ∧ acc.getLast? ≠ some ['.', '.']
        · rw [if_pos h3]
          have htlne : tl ≠ [] := by
            intro e
            subst e
            rcases Nat.eq_zero_or_pos i with hi | hi
            · subst hi; exact h3.1 (by simpa using heq)
            · refine h3.2 ?_
              rw [heq]
              simpa using getLast?_replicate_dd i (by omega)
          refine ih acc.dropLast hsl' ⟨i, tl.dropLast, ?_, ?_⟩
          · rw [heq, List.dropLast_append_of_ne_nil _ htlne]
          · exact fun x hx => htl x (List.mem_of_mem_dropLast hx)
        · rw [if_neg h3]
          rw [if_neg (by simp)]
          have htlnil : tl = [] := by
            rcases tl with _ | ⟨r, rs⟩
            · rfl
            · exfalso
              rcases not_and_or.1 h3 with h | h
              · exact h (by
                  rw [heq]
                  simp)
              · push_neg at h
                rw [heq, List.getLast?_append_of_ne_nil _ (by simp)] at h
                rw [List.getLast?_eq_getLast _ (by simp)] at h
                have hmem := List.getLast_mem (l := r :: rs) (by simp)
                have := (htl _ hmem).2.2.1
                rw [Option.some_inj] at h
                exact this h
          subst htlnil
          refine ih (acc ++ [['.', '.']]) hsl' ⟨i + 1, [], ?_, by simp⟩
          rw [heq]
          simp [List.replicate_succ']
      · rw [if_neg h2]
        refine ih (acc ++ [seg]) hsl' ⟨i, tl ++ [seg], ?_, ?_⟩
        · rw [heq, List.append_assoc]
        · intro x hx
          rcases List.mem_append.1 hx with hx | hx
          · exact htl x hx
          · have hx' : x = seg := by simpa using hx
            subst hx'
            push_neg at h1
            exact ⟨h1.1, h1.2, h2, hsl x (List.mem_cons_self _ _)⟩

theorem processSegs_cons_empty (rooted : Bool) (acc : List (List Char))
    (rest : List (List Char)) :
    processSegs rooted acc ([] :: rest) = processSegs rooted acc rest := by
  simp only [processSegs, if_true]
  rw [if_pos (Or.inl trivial)]

theorem cleanL_dot : cleanL ['.'] = ['.'] := by decide

theorem cleanL_idem (cs : List Char) : cleanL (cleanL cs) = cleanL cs := by
  by_cases h0 : cs = []
  · subst h0; decide
  · by_cases hr : cs.head? = some '/'
    · have hseg := processSegs_rooted_valid (splitSlash cs) [] (splitSlash_no_slash cs) (by simp)
      have hcs : cleanL cs = '/' :: joinSlash (processSegs true [] (splitSlash cs)) := by
        simp [cleanL, h0, hr]
      rw [hcs]
      cases hs2 : processSegs true [] (splitSlash cs) with
      | nil => decide
      | cons s ss =>
        rw [hs2] at hseg
        have hslfree : ∀ x ∈ s :: ss, '/' ∉ x := fun x hx => (hseg x hx).2.2.2
        have h0' : ('/' :: joinSlash (s :: ss) : List Char) ≠ [] := by simp
        have hr' : (('/' : Char) :: joinSlash (s :: ss)).head? = some '/' := rfl
        rw [show cleanL ('/' :: joinSlash (s :: ss))
            = '/' :: joinSlash (processSegs true [] (splitSlash ('/' :: joinSlash (s :: ss)))) by
          simp [cleanL, h0', hr']]
        congr 1
        rw [splitSlash_slash, splitSlash_joinSlash (s :: ss) (by simp) hslfree,
          processSegs_cons_empty, processSegs_valid true (s :: ss) [] hseg,
          List.nil_append]
    · obtain ⟨i, rest, heq, hrest⟩ :=
        processSegs_unrooted_shape (splitSlash cs) [] (splitSlash_no_slash cs)
          ⟨0, [], by simp, by simp⟩
      by_cases hout : joinSlash (processSegs false [] (splitSlash cs)) = []
      · have hcs : cleanL cs = ['.'] := by simp [cleanL, h0, hr, hout]
        rw [hcs]; decide
      · have hcs : cleanL cs = joinSlash (processSegs false [] (splitSlash cs)) := by
          simp [cleanL, h0, hr, hout]
        have hsegne : processSegs false [] (splitSlash cs) ≠ [] := by
          intro e; rw [e] at hout; exact hout rfl
        have hmem_cases : ∀ x ∈ processSegs false [] (splitSlash cs),
            x = ['.', '.'] ∨ validSeg x := by
          intro x hx
          rw [heq] at hx
          rcases List.mem_append.1 hx with hx | hx
          · exact Or.inl (List.eq_of_mem_replicate hx)
          · exact Or.inr (hrest x hx)
        have hslfree : ∀ x ∈ processSegs false [] (splitSlash cs), '/' ∉ x := by
          intro x hx
          rcases hmem_cases x hx with h | h
          · subst h; decide
          · exact h.2.2.2
        rw [hcs]
        cases hs2 : processSegs false [] (splitSlash cs) with
        | nil => exact absurd hs2 hsegne
        | cons s ss =>
          have hsne : s ≠ [] := by
            rcases hmem_cases s (by rw [hs2]; exact List.mem_cons_self _ _) with h | h
            · subst h; simp
            · exact h.1
          have hsnos : '/' ∉ s := hslfree s (by rw [hs2]; exact List.mem_cons_self _ _)
          have hne' : joinSlash (s :: ss) ≠ [] := joinSlash_ne_nil s ss hsne
          have hr' : (joinSlash (s :: ss)).head? ≠ some '/' := by
            rw [joinSlash_head? s ss hsne]
            cases s with
            | nil => exact absurd rfl hsne
            | cons c s' =>
              simp only [List.head?_cons]
              intro e
              injection e with e
              exact hsnos (by rw [← e]; exact List.mem_cons_self _ _)
          have hsplit : splitSlash (joinSlash (s :: ss)) = s :: ss := by
            rw [splitSlash_joinSlash (s :: ss) (by simp) (by rw [← hs2]; exact hslfree)]
          rw [show cleanL (joinSlash (s :: ss))
              = (if joinSlash (processSegs false [] (splitSlash (joinSlash (s :: ss)))) = []
                  then ['.']
                  else joinSlash (processSegs false [] (splitSlash (joinSlash (s :: ss))))) by
            simp [cleanL, hne', hr']]
          rw [hsplit, ← hs2, heq]
          rw [show processSegs false [] (List.replicate i (['.', '.'] : List Char) ++ rest)
              = List.replicate (0 + i) (['.', '.'] : List Char) ++ rest from
            processSegs_dd_prefix rest hrest i 0]
          rw [Nat.zero_add, ← heq, hs2]
          rw [if_neg (by rw [← hs2]; exact hout)]

theorem cleanL_ne_nil (cs : List Char) : cleanL cs ≠ [] := by
  by_cases h0 : cs = []
  · simp [cleanL, h0]
  · by_cases hr : cs.head? = some '/'
    · simp [cleanL, h0, hr]
    · by_cases hout : joinSlash (processSegs false [] (splitSlash cs)) = []
      · simp [cleanL, h0, hr, hout]
      · simp [cleanL, h0, hr, hout]

theorem clean_idem (p : String) : clean (clean p) = clean p := by
  unfold clean
  rw [cleanL_idem]

theorem clean_ne_empty (p : String) : clean p ≠ "" := by
  unfold clean
  intro h
  exact cleanL_ne_nil p.data (congrArg String.data h)

theorem joinSlash_head_ne_slash (s : List Char) (ss : List (List Char))
    (hsne : s ≠ []) (hnos : '/' ∉ s) : (joinSlash (s :: ss)).head? ≠ some '/' := by
  rw [joinSlash_head? s ss hsne]
  cases s with
  | nil => exact absurd rfl hsne
  | cons c s' =>
    simp only [List.head?_cons]
    intro e
    injection e with e
    exact hnos (by rw [← e]; exact List.mem_cons_self _ _)

theorem cleanL_joinSlash_valid (segs : List (List Char)) (hne : segs ≠ [])
    (hv : ∀ s ∈ segs, validSeg s) : cleanL (joinSlash segs) = joinSlash segs := by
  cases segs with
  | nil => exact absurd rfl hne
  | cons s ss =>
    have hs := hv s (List.mem_cons_self _ _)
    have hjne := joinSlash_ne_nil s ss hs.1
    have hr' := joinSlash_head_ne_slash s ss hs.1 hs.2.2.2
    have hsplit := splitSlash_joinSlash (s :: ss) (by simp) (fun x hx => (hv x hx).2.2.2)
    have hproc := processSegs_valid false (s :: ss) [] hv
    simp [cleanL, hjne, hr', hsplit, hproc]

theorem joinSlash_inj (L1 L2 : List (List Char)) (h1 : L1 ≠ []) (h2 : L2 ≠ [])
    (hs1 : ∀ s ∈ L1, '/' ∉ s) (hs2 : ∀ s ∈ L2, '/' ∉ s)
    (h : joinSlash L1 = joinSlash L2) : L1 = L2 := by
  rw [← splitSlash_joinSlash L1 h1 hs1, ← splitSlash_joinSlash L2 h2 hs2, h]

theorem pathJoin_eq_of_valid (elems : List String) (hne : elems ≠ [])
    (h : ∀ e ∈ elems, validComp e) :
    pathJoin elems = String.mk (joinSlash (elems.map String.data)) := by
  have hnempty : ∀ e ∈ elems, e ≠ "" := by
    intro e he r
    subst r
    exact (h _ he).1 rfl
  have hfil : elems.filter (fun e => e ≠ "") = elems := by
    rw [List.filter_eq_self]
    intro a ha
    simpa using hnempty a ha
  unfold pathJoin
  rw [hfil, if_neg hne]
  unfold clean
  apply String.ext
  apply cleanL_joinSlash_valid
  · simpa using hne
  · intro x hx
    obtain ⟨e, he, rfl⟩ := List.mem_map.1 hx
    exact h e he

theorem digitVal_digitChar (d : Nat) (h : d < 10) : digitVal (digitChar d) = d := by
  interval_cases d <;> decide

theorem digitChar_ne_dot (d : Nat) (h : d < 10) : digitChar d ≠ '.' := by
  interval_cases d <;> decide

theorem digitChar_ne_slash (d : Nat) (h : d < 10) : digitChar d ≠ '/' := by
  interval_cases d <;> decide

theorem decChars_digits (n : Nat) : ∀ c ∈ decChars n, ∃ d, d < 10 ∧ c = digitChar d := by
  induction n using Nat.strong_induction_on with
  | _ n ih =>
    rw [decChars]
    split
    · rename_i h
      intro c hc
      have hc' : c = digitChar n := by simpa using hc
      exact ⟨n, h, hc'⟩
    · rename_i h
      intro c hc
      rcases List.mem_append.1 hc with hm | hm
      · exact ih (n / 10) (Nat.div_lt_self (by omega) (by omega)) c hm
      · have hc' : c = digitChar (n % 10) := by simpa using hm
        exact ⟨n % 10, Nat.mod_lt _ (by omega), hc'⟩

theorem decChars_ne_nil (n : Nat) : decChars n ≠ [] := by
  rw [decChars]
  split <;> simp

theorem validSeg_decChars (n : Nat) : validSeg (decChars n) := by
  refine ⟨decChars_ne_nil n, ?_, ?_, ?_⟩
  · intro e
    have : '.' ∈ decChars n := by rw [e]; exact List.mem_cons_self _ _
    obtain ⟨d, hd, hdc⟩ := decChars_digits n '.' this
    exact digitChar_ne_dot d hd hdc.symm
  · intro e
    have : '.' ∈ decChars n := by rw [e]; exact List.mem_cons_self _ _
    obtain ⟨d, hd, hdc⟩ := decChars_digits n '.' this
    exact digitChar_ne_dot d hd hdc.symm
  · intro hmem
    obtain ⟨d, hd, hdc⟩ := decChars_digits n '/' hmem
    exact digitChar_ne_slash d hd hdc.symm

theorem validComp_decStr (n : Nat) : validComp (decStr n) :=
  validSeg_decChars n

theorem decVal_concat (ds : List Char) (c : Char) :
    decVal (ds ++ [c]) = decVal ds * 10 + digitVal c := by
  simp [decVal, List.foldl_append]

theorem decVal_decChars (n : Nat) : decVal (decChars n) = n := by
  induction n using Nat.strong_induction_on with
  | _ n ih =>
    rw [decChars]
    split
    · rename_i h
      simp [decVal, digitVal_digitChar n h]
    · rename_i h
      rw [decVal_concat, ih (n / 10) (Nat.div_lt_self (by omega) (by omega)),
        digitVal_digitChar (n % 10) (Nat.mod_lt _ (by omega))]
      omega

theorem decChars_inj {i j : Nat} (h : decChars i = decChars j) : i = j := by
  have := congrArg decVal h
  rwa [decVal_decChars, decVal_decChars] at this

theorem baseBranch_eq_of_valid (bid n : String) (hb : validComp bid) (hn : validComp n) :
    baseBranch bid n
      = String.mk (joinSlash ["citizenkane".data, bid.data, "base".data, n.data]) := by
  have h : ∀ e ∈ ["citizenkane", bid, "base", n], validComp e := by
    intro e he
    simp at he
    rcases he with rfl | rfl | rfl | rfl
    · decide
    · exact hb
    · decide
    · exact hn
  unfold baseBranch
  rw [pathJoin_eq_of_valid _ (by simp) h]
  simp

theorem mapBranch_eq_of_valid (bid n : String) (i : Nat)
    (hb : validComp bid) (hn : validComp n) :
    mapBranch bid n i
      = String.mk (joinSlash
          ["citizenkane".data, bid.data, "map".data, n.data, decChars i]) := by
  have h : ∀ e ∈ ["citizenkane", bid, "map", n, decStr i], validComp e := by
    intro e he
    simp at he
    rcases he with rfl | rfl | rfl | rfl | rfl
    · decide
    · exact hb
    · decide
    · exact hn
    · exact validComp_decStr i
  unfold mapBranch
  rw [pathJoin_eq_of_valid _ (by simp) h]
  simp [decStr]

theorem baseBranch_inj (bid n1 n2 : String)
    (hb : validComp bid) (h1 : validComp n1) (h2 : validComp n2)
    (h : baseBranch bid n1 = baseBranch bid n2) : n1 = n2 := by
  rw [baseBranch_eq_of_valid bid n1 hb h1, baseBranch_eq_of_valid bid n2 hb h2] at h
  have hd : joinSlash ["citizenkane".data, bid.data, "base".data, n1.data]
      = joinSlash ["citizenkane".data, bid.data, "base".data, n2.data] :=
    congrArg String.data h
  have hlists := joinSlash_inj _ _ (by simp) (by simp)
    (by
      intro x hx
      simp at hx
      rcases hx with rfl | rfl | rfl | rfl
      · decide
      · exact hb.2.2.2
      · decide
      · exact h1.2.2.2)
    (by
      intro x hx
      simp at hx
      rcases hx with rfl | rfl | rfl | rfl
      · decide
      · exact hb.2.2.2
      · decide
      · exact h2.2.2.2)
    hd
  simp only [List.cons.injEq, and_true, true_and] at hlists
  exact String.ext hlists

theorem mapBranch_inj (bid n1 n2 : String) (i j : Nat)
    (hb : validComp bid) (h1 : validComp n1) (h2 : validComp n2)
    (h : mapBranch bid n1 i = mapBranch bid n2 j) : n1 = n2 ∧ i = j := by
  rw [mapBranch_eq_of_valid bid n1 i hb h1, mapBranch_eq_of_valid bid n2 j hb h2] at h
  have hd : joinSlash ["citizenkane".data, bid.data, "map".data, n1.data, decChars i]
      = joinSlash ["citizenkane".data, bid.data, "map".data, n2.data, decChars j] :=
    congrArg String.data h
  have hlists := joinSlash_inj _ _ (by simp) (by simp)
    (by
      intro x hx
      simp at hx
      rcases hx with rfl | rfl | rfl | rfl | rfl
      · decide
      · exact hb.2.2.2
      · decide
      · exact h1.2.2.2
      · exact (validSeg_decChars i).2.2.2)
    (by
      intro x hx
      simp at hx
      rcases hx with rfl | rfl | rfl | rfl | rfl
      · decide
      · exact hb.2.2.2
      · decide
      · exact h2.2.2.2
      · exact (validSeg_decChars j).2.2.2)
    hd
  simp only [List.cons.injEq, and_true, true_and] at hlists
  exact ⟨String.ext hlists.1, decChars_inj hlists.2⟩

theorem applyDefaults_eq (m : Manifest) : applyDefaults m = m := by
  cases m with
  | mk srcs => simp [applyDefaults]

theorem cmdKinds_append (l1 l2 : List Line) :
    cmdKinds (l1 ++ l2) = cmdKinds l1 ++ cmdKinds l2 := by
  simp [cmdKinds]

theorem countKind_append (k : CmdKind) (l1 l2 : List Line) :
    countKind k (l1 ++ l2) = countKind k l1 + countKind k l2 := by
  simp [countKind, cmdKinds_append]

theorem cmdKinds_fetchLines (bid : String) (src : Source) :
    cmdKinds (fetchLines bid src) = [CmdKind.fetch] := by
  simp [cmdKinds, fetchLines]

theorem cmdKinds_dupBranchLines (s d : String) :
    cmdKinds (dupBranchLines s d) = [CmdKind.dup] := by
  simp [cmdKinds, dupBranchLines]

theorem cmdKinds_zoomInLines (b d : String) :
    cmdKinds (zoomInLines b d) = [CmdKind.zoomIn] := by
  simp [cmdKinds, zoomInLines]

theorem cmdKinds_zoomOutLines (b d t : String) :
    cmdKinds (zoomOutLines b d t) = [CmdKind.zoomOut] := by
  simp [cmdKinds, zoomOutLines]

theorem cmdKinds_mergeLayerLines (b t : String) :
    cmdKinds (mergeLayerLines b t) = [CmdKind.merge] := by
  simp [cmdKinds, mergeLayerLines]

theorem cmdKinds_processMapping (bid : String) (src : Source) (rnd : Nat → List (Fin 256))
    (mapid k : Nat) (mp : String × String) :
    cmdKinds (processMapping bid src rnd mapid k mp).2
      = [CmdKind.dup] ++ (if clean mp.1 ≠ "/" then [CmdKind.zoomIn] else [])
        ++ (if clean mp.2 ≠ "" then [CmdKind.zoomOut] else []) ++ [CmdKind.merge] := by
  simp only [processMapping]
  rw [if_pos (clean_ne_empty mp.2), if_pos (clean_ne_empty mp.2)]
  rcases eq_or_ne (clean mp.1) "/" with hf | hf
  · rw [if_neg (not_not_intro hf), if_neg (not_not_intro hf)]
    simp [cmdKinds_append, cmdKinds_dupBranchLines, cmdKinds_zoomOutLines,
      cmdKinds_mergeLayerLines]
  · rw [if_pos hf, if_pos hf]
    simp [cmdKinds_append, cmdKinds_dupBranchLines, cmdKinds_zoomInLines,
      cmdKinds_zoomOutLines, cmdKinds_mergeLayerLines]

theorem countKind_zoomOut_processMapping (bid : String) (src : Source)
    (rnd : Nat → List (Fin 256)) (mapid k : Nat) (mp : String × String) :
    countKind CmdKind.zoomOut (processMapping bid src rnd mapid k mp).2 = 1 := by
  rw [countKind, cmdKinds_processMapping]
  rw [if_pos (clean_ne_empty mp.2)]
  rcases eq_or_ne (clean mp.1) "/" with hf | hf
  · rw [if_neg (not_not_intro hf)]
    decide
  · rw [if_pos hf]
    decide

theorem countKind_zoomOut_processMappings (bid : String) (src : Source)
    (rnd : Nat → List (Fin 256)) :
    ∀ (mps : List (String × String)) (mapid k : Nat),
      countKind CmdKind.zoomOut (processMappings bid src rnd mapid k mps).2 = mps.length := by
  intro mps
  induction mps with
  | nil => intro mapid k; simp [processMappings, countKind, cmdKinds]
  | cons mp rest ih =>
    intro mapid k
    simp only [processMappings]
    rw [countKind_append, countKind_zoomOut_processMapping, ih]
    simp [Nat.add_comm]

theorem countKind_zoomOut_processSources (bid : String) (rnd : Nat → List (Fin 256)) :
    ∀ (srcs : List Source) (k : Nat),
      countKind CmdKind.zoomOut (processSources bid rnd k srcs).2
        = (srcs.map fun s => s.Mapping.length).sum := by
  intro srcs
  induction srcs with
  | nil => intro k; simp [processSources, countKind, cmdKinds]
  | cons src rest ih =>
    intro k
    simp only [processSources]
    rw [countKind_append, countKind_zoomOut_processMappings, ih]
    simp

theorem countKind_zoomOut_fetchPart (bid : String) :
    ∀ srcs : List Source,
      countKind CmdKind.zoomOut
        (srcs.flatMap fun src =>
          if src.Name = "" then [Line.diag "skipping unnamed source"]
          else fetchLines bid src) = 0 := by
  intro srcs
  induction srcs with
  | nil => simp [countKind, cmdKinds]
  | cons src rest ih =>
    rw [List.flatMap_cons, countKind_append, ih]
    rcases eq_or_ne src.Name "" with hn | hn
    · simp [hn, countKind, cmdKinds]
    · rw [if_neg hn]
      simp [countKind, cmdKinds_fetchLines]

theorem countKind_zoomOut_generate (bid : String) (rnd : Nat → List (Fin 256)) (m : Manifest) :
    countKind CmdKind.zoomOut (generate bid rnd m) = totalMappings m := by
  unfold generate
  rw [applyDefaults_eq]
  rw [countKind_append, countKind_append, countKind_append]
  rw [countKind_zoomOut_fetchPart, countKind_zoomOut_processSources]
  simp [countKind, cmdKinds, dupBranchLines, totalMappings]

theorem hexDigitChar_mem (d : Nat) (h : d < 16) : hexDigitChar d ∈ hexChars := by
  interval_cases d <;> decide

theorem hexEncode_length (bytes : List (Fin 256)) :
    (hexEncode bytes).length = 2 * bytes.length := by
  induction bytes with
  | nil => simp [hexEncode]
  | cons b t ih =>
    simp [hexEncode] at ih ⊢
    omega

theorem mem_hexEncode (bytes : List (Fin 256)) (c : Char) (h : c ∈ hexEncode bytes) :
    c ∈ hexChars := by
  unfold hexEncode at h
  rcases List.mem_flatMap.1 h with ⟨b, _, hc⟩
  have hb := b.isLt
  rcases List.mem_cons.1 hc with rfl | hc'
  · exact hexDigitChar_mem _ (by omega)
  · have : c = hexDigitChar (b.val % 16) := by simpa using hc'
    subst this
    exact hexDigitChar_mem _ (by omega)

theorem processSources_cons (bid : String) (rnd : Nat → List (Fin 256))
    (k : Nat) (src : Source) (rest : List Source) :
    (processSources bid rnd k (src :: rest)).2
      = (processMappings bid src rnd 0 k src.Mapping).2
        ++ (processSources bid rnd (processMappings bid src rnd 0 k src.Mapping).1 rest).2 := by
  simp [processSources]

theorem processMappings_single (bid : String) (src : Source) (rnd : Nat → List (Fin 256))
    (mapid k : Nat) (mp : String × String) :
    (processMappings bid src rnd mapid k [mp]).2
      = (processMapping bid src rnd mapid k mp).2 := by
  simp [processMappings]

/-- C9: path cleaning is idempotent: for every path string p, cleaning the
cleaned path yields the cleaned path; in particular "/a/b/" cleans to
"/a/b" and "a//b/.." cleans to "a". -/
theorem C9_clean_idempotent :
    (∀ p : String, clean (clean p) = clean p)
      ∧ clean "/a/b/" = "/a/b" ∧ clean "a//b/.." = "a" :=
  ⟨clean_idem, by decide, by decide⟩

/-- C10: for every mapping-loop iteration a zoom-out step is emitted,
because path cleaning never yields the empty string (so the guard
`to != ""` always holds): the number of zoom-out commands in any generated
script equals the total number of mappings of the manifest. -/
theorem C10_zoomOut_always_emitted :
    (∀ p : String, clean p ≠ "")
      ∧ ∀ (bid : String) (rnd : Nat → List (Fin 256)) (m : Manifest),
          countKind CmdKind.zoomOut (generate bid rnd m) = totalMappings m :=
  ⟨clean_ne_empty, countKind_zoomOut_generate⟩

/-- C8: the process exits 0 exactly when the manifest file could be
opened/read and its contents decoded; both failures exit non-zero after
the header, and no property of the decoded manifest itself (empty names,
empty mapping lists) can abort generation. -/
theorem C8_exit_zero_iff_loaded (bidBytes : List (Fin 256)) (rnd : Nat → List (Fin 256))
    (file : Option String) (decode : String → Option Manifest) :
    (runMain bidBytes rnd file decode).1 = 0
      ↔ ∃ data m, file = some data ∧ decode data = some m := by
  unfold runMain
  cases file with
  | none => simp
  | some data =>
    cases hd : decode data with
    | none => simp [hd]
    | some m => simp [hd]

/-- C4 counterexample: the raw source names "a" and "a/" are distinct yet
produce the same base branch within one build id, because path.Join cleans
the joined path. -/
theorem C4_counterexample :
    ("a" : String) ≠ "a/" ∧ baseBranch "abcd" "a" = baseBranch "abcd" "a/" :=
  ⟨by decide, by decide⟩

/-- C4 (amended): the branch-naming functions are pure functions of their
arguments by construction; restricted to build ids and source names that
are single clean path components (nonempty, slash-free, not "." or ".."),
they never collide within one build id: base is injective in the name, and
map is injective in the (name, mapping index) pair. -/
theorem C4_branch_names_injective (bid n1 n2 : String) (i j : Nat)
    (hb : validComp bid) (h1 : validComp n1) (h2 : validComp n2) :
    (baseBranch bid n1 = baseBranch bid n2 → n1 = n2)
      ∧ (mapBranch bid n1 i = mapBranch bid n2 j → n1 = n2 ∧ i = j) :=
  ⟨baseBranch_inj bid n1 n2 hb h1 h2, mapBranch_inj bid n1 n2 i j hb h1 h2⟩

/-- Witness for C4 (amended) at concrete component-shaped inputs. -/
theorem C4_branch_names_injective_witness :
    validComp "abcd" ∧ validComp "docs" ∧ validComp "libs"
      ∧ ((baseBranch "abcd" "docs" = baseBranch "abcd" "libs" → "docs" = "libs")
        ∧ (mapBranch "abcd" "docs" 0 = mapBranch "abcd" "libs" 1
            → "docs" = "libs" ∧ 0 = 1)) :=
  ⟨by decide, by decide, by decide,
    C4_branch_names_injective "abcd" "docs" "libs" 0 1 (by decide) (by decide) (by decide)⟩

/-- C5 counterexample: the build id is `RandomString()[:4]`: at the
all-zero entropy its length is 4, not 8. -/
theorem C5_counterexample :
    (mkBuildId (List.replicate 32 (0 : Fin 256))).length = 4
      ∧ (mkBuildId (List.replicate 32 (0 : Fin 256))).length ≠ 8 :=
  ⟨by decide, by decide⟩

/-- C5 (amended): the build identifier generated once per run is a
4-character random hexadecimal token: for any 32 entropy bytes it has
length 4 and consists of lower-case hex digits. -/
theorem C5_buildid_4_hex (bytes : List (Fin 256)) (h : bytes.length = 32) :
    (mkBuildId bytes).length = 4 ∧ ∀ c ∈ (mkBuildId bytes).data, c ∈ hexChars := by
  constructor
  · have hrfl : (mkBuildId bytes).length = ((hexEncode bytes).take 4).length := rfl
    rw [hrfl, List.length_take, hexEncode_length, h]
    omega
  · intro c hc
    have hc' : c ∈ (hexEncode bytes).take 4 := by
      simpa [mkBuildId, strTake, randomString] using hc
    exact mem_hexEncode bytes c (List.mem_of_mem_take hc')

/-- Witness for C5 (amended) at the all-zero entropy. -/
theorem C5_buildid_4_hex_witness :
    (List.replicate 32 (0 : Fin 256)).length = 32
      ∧ ((mkBuildId (List.replicate 32 (0 : Fin 256))).length = 4
        ∧ ∀ c ∈ (mkBuildId (List.replicate 32 (0 : Fin 256))).data, c ∈ hexChars) :=
  ⟨by decide, C5_buildid_4_hex _ (by decide)⟩

/-- C1 (code evaluation): for a source with unset Branch, the defaults pass
loses the `master` default (Go ranges over value copies), so the single
emitted fetch command carries an empty remote branch instead of "master":
it reads `git fetch -f u :citizenkane/abcd/base/x`. -/
theorem C1_fetch_branch_not_defaulted :
    Line.cmd CmdKind.fetch "git fetch -f u :citizenkane/abcd/base/x"
      ∈ generate "abcd" (fun _ => List.replicate 32 (0 : Fin 256))
          (Manifest.mk [Source.mk "x" "o" "u" "" [("/", "/")]])
      ∧ countKind CmdKind.fetch
          (generate "abcd" (fun _ => List.replicate 32 (0 : Fin 256))
            (Manifest.mk [Source.mk "x" "o" "u" "" [("/", "/")]])) = 1 := by
  decide

/-- C2 (code evaluation): for a source with an empty Mapping list, the
defaults pass loses the identity mapping, so the mapping loop runs zero
times and no map-branch/zoom/merge sequence is emitted at all: the command
kinds are exactly fetch then the destination duplication. -/
theorem C2_empty_mapping_emits_nothing :
    cmdKinds (generate "abcd" (fun _ => List.replicate 32 (0 : Fin 256))
      (Manifest.mk [Source.mk "x" "o" "u" "" []]))
      = [CmdKind.fetch, CmdKind.dup] := by
  decide

/-- C3 (code evaluation): a source with an empty Name is skipped with a
notice in the fetch loop, yet the mapping loop does not skip it: with
Mapping [("/a", "/b")] the script still contains the map-branch
duplication, zoom-in, zoom-out and merge commands for the unnamed
source. -/
theorem C3_unnamed_source_still_mapped :
    Line.diag "skipping unnamed source"
      ∈ generate "abcd" (fun _ => List.replicate 32 (0 : Fin 256))
          (Manifest.mk [Source.mk "" "o" "u" "" [("/a", "/b")]])
      ∧ countKind CmdKind.fetch
          (generate "abcd" (fun _ => List.replicate 32 (0 : Fin 256))
            (Manifest.mk [Source.mk "" "o" "u" "" [("/a", "/b")]])) = 0
      ∧ cmdKinds (generate "abcd" (fun _ => List.replicate 32 (0 : Fin 256))
            (Manifest.mk [Source.mk "" "o" "u" "" [("/a", "/b")]]))
          = [CmdKind.dup, CmdKind.dup, CmdKind.zoomIn, CmdKind.zoomOut, CmdKind.merge] := by
  decide

/-- C7 (code evaluation): the skip notice for an unnamed source is a
diagnostic line that does not begin with the comment character '#', unlike
every other diagnostic the generator prints. -/
theorem C7_skip_notice_not_comment :
    Line.diag "skipping unnamed source"
      ∈ generate "abcd" (fun _ => List.replicate 32 (0 : Fin 256))
          (Manifest.mk [Source.mk "" "o" "u" "" [("/", "/")]])
      ∧ ("skipping unnamed source" : String).data.head? ≠ some '#' := by
  decide

/-- C6 counterexample: a manifest with exactly two sources, each with one
mapping, need not contain two fetch lines: when the first source is
unnamed, only one fetch command is emitted. -/
theorem C6_counterexample :
    countKind CmdKind.fetch
      (generate "abcd" (fun _ => List.replicate 32 (0 : Fin 256))
        (Manifest.mk [Source.mk "" "o" "u" "" [("/", "/")],
          Source.mk "x" "o" "u" "" [("/", "/")]])) = 1
      ∧ countKind CmdKind.fetch
          (generate "abcd" (fun _ => List.replicate 32 (0 : Fin 256))
            (Manifest.mk [Source.mk "" "o" "u" "" [("/", "/")],
              Source.mk "x" "o" "u" "" [("/", "/")]])) ≠ 2 := by
  constructor
  · decide
  · decide

/-- C6 (amended): for a manifest with exactly two sources, each with a
nonempty name and exactly one mapping, the generated script's command
lines are, in order: 2 fetches, 1 duplicate-to-destination, then per
source (in manifest order) 1 duplicate-to-map, a zoom-in exactly when the
cleaned from-path is not "/", a zoom-out exactly when the cleaned to-path
is nonempty (which always holds), and 1 merge-layer sequence. -/
theorem C6_two_source_script_shape (bid : String) (rnd : Nat → List (Fin 256))
    (s1 s2 : Source) (mp1 mp2 : String × String)
    (h1 : s1.Name ≠ "") (h2 : s2.Name ≠ "")
    (hm1 : s1.Mapping = [mp1]) (hm2 : s2.Mapping = [mp2]) :
    cmdKinds (generate bid rnd (Manifest.mk [s1, s2]))
      = [CmdKind.fetch, CmdKind.fetch, CmdKind.dup]
        ++ ([CmdKind.dup] ++ (if clean mp1.1 ≠ "/" then [CmdKind.zoomIn] else [])
          ++ (if clean mp1.2 ≠ "" then [CmdKind.zoomOut] else []) ++ [CmdKind.merge])
        ++ ([CmdKind.dup] ++ (if clean mp2.1 ≠ "/" then [CmdKind.zoomIn] else [])
          ++ (if clean mp2.2 ≠ "" then [CmdKind.zoomOut] else []) ++ [CmdKind.merge]) := by
  simp only [generate, applyDefaults_eq]
  rw [List.flatMap_cons, List.flatMap_cons, List.flatMap_nil, List.append_nil]
  rw [if_neg h1, if_neg h2]
  rw [processSources_cons, processSources_cons, hm1, hm2,
    processMappings_single, processMappings_single]
  rw [show ∀ k, (processSources bid rnd k ([] : List Source)).2 = ([] : List Line)
    from fun k => rfl]
  simp only [cmdKinds_append, cmdKinds_fetchLines, cmdKinds_dupBranchLines,
    cmdKinds_processMapping]
  simp [cmdKinds]

/-- Witness for C6 (amended) at the spec's example-style manifest: docs
maps the root under /documentation (no zoom-in, one zoom-out), libs
extracts /src to the root (one zoom-in, one zoom-out). -/
theorem C6_two_source_script_shape_witness :
    (Source.mk "docs" "o" "u1" "" [("/", "/documentation")]).Name ≠ ""
      ∧ (Source.mk "libs" "o" "u2" "dev" [("/src", "/")]).Name ≠ ""
      ∧ (Source.mk "docs" "o" "u1" "" [("/", "/documentation")]).Mapping
          = [("/", "/documentation")]
      ∧ (Source.mk "libs" "o" "u2" "dev" [("/src", "/")]).Mapping = [("/src", "/")]
      ∧ cmdKinds (generate "abcd" (fun _ => List.replicate 32 (0 : Fin 256))
          (Manifest.mk [Source.mk "docs" "o" "u1" "" [("/", "/documentation")],
            Source.mk "libs" "o" "u2" "dev" [("/src", "/")]]))
        = [CmdKind.fetch, CmdKind.fetch, CmdKind.dup]
          ++ ([CmdKind.dup]
            ++ (if clean ("/", "/documentation").1 ≠ "/" then [CmdKind.zoomIn] else [])
            ++ (if clean ("/", "/documentation").2 ≠ "" then [CmdKind.zoomOut] else [])
            ++ [CmdKind.merge])
          ++ ([CmdKind.dup]
            ++ (if clean ("/src", "/").1 ≠ "/" then [CmdKind.zoomIn] else [])
            ++ (if clean ("/src", "/").2 ≠ "" then [CmdKind.zoomOut] else [])
            ++ [CmdKind.merge]) :=
  ⟨by decide, by decide, rfl, rfl,
    C6_two_source_script_shape "abcd" (fun _ => List.replicate 32 (0 : Fin 256))
      (Source.mk "docs" "o" "u1" "" [("/", "/documentation")])
      (Source.mk "libs" "o" "u2" "dev" [("/src", "/")])
      ("/", "/documentation") ("/src", "/")
      (by decide) (by decide) rfl rfl⟩
